import Mathlib

/-!
Verification of the docker-hostmanager core: the hostname resolver and
eligibility predicate (types rs), and the state synchronizer, debounce
scheduler and managed-section file patcher (synchronizer rs).

Strings are modelled by Lean `String`; the handful of Rust string
primitives the program uses (trim, split, split_once, ends_with,
starts_with, lines) are embedded at the character-list level so that
every definition is executable and kernel-reducible.
-/

namespace DockerHostManager

/-! Section: Character-level string primitives -/

/-- Remove one trailing carriage return, as the Rust line iterator does for
    a line that was terminated by a carriage return plus line feed. -/
def stripCRChars (l : List Char) : List Char :=
  if l.getLast? = some '\r' then l.dropLast else l

/-- Whitespace trimming at both ends of a character list: str trim. -/
def trimChars (l : List Char) : List Char :=
  ((l.dropWhile Char.isWhitespace).reverse.dropWhile Char.isWhitespace).reverse

/-- First segment and remaining segments of a character list split at a
    separator character. -/
def splitAux (c : Char) : List Char → List Char × List (List Char)
  | [] => ([], [])
  | x :: rest =>
    let r := splitAux c rest
    if x = c then ([], r.1 :: r.2) else (x :: r.1, r.2)

/-- All segments of a character list split at a separator: str split. -/
def splitOnChar (c : Char) (l : List Char) : List (List Char) :=
  (splitAux c l).1 :: (splitAux c l).2

/-- Split at the first occurrence of a character: str split_once. -/
def splitOnceChars (c : Char) : List Char → Option (List Char × List Char)
  | [] => none
  | x :: rest =>
    if x = c then some ([], rest)
    else (splitOnceChars c rest).map (fun p => (x :: p.1, p.2))

/-- split_once lifted to strings. -/
def splitOnceStr (s : String) (c : Char) : Option (String × String) :=
  (splitOnceChars c s.data).map (fun p => (String.mk p.1, String.mk p.2))

/-- Suffix test on character lists. -/
def isSuffix (suf l : List Char) : Bool :=
  suf == l.drop (l.length - suf.length)

/-- str ends_with. -/
def endsWithStr (s suf : String) : Bool := isSuffix suf.data s.data

/-- Test whether a character list starts with a given segment. -/
def isPre (pre l : List Char) : Bool := pre == l.take pre.length

/-- Rust str lines: split the content at every line feed, strip one
    carriage return from each segment that was followed by a line feed,
    and ignore a final empty segment (i.e. a trailing line feed). -/
def rustLinesSegs : List (List Char) → List (List Char)
  | [] => []
  | [last] => if last.isEmpty then [] else [last]
  | p :: q :: rest => stripCRChars p :: rustLinesSegs (q :: rest)

def rustLinesChars (l : List Char) : List (List Char) :=
  rustLinesSegs (splitOnChar '\n' l)

def rustLines (s : String) : List String :=
  (rustLinesChars s.data).map (fun cs => String.mk cs)

/-- Join lines with a line feed separator: slice join. -/
def joinChar (c : Char) : List (List Char) → List Char
  | [] => []
  | [l] => l
  | l :: q :: rest => l ++ c :: joinChar c (q :: rest)

/-! Section: Data model (types rs) -/

structure NetworkInfo where
  ip_address : String
  aliases : List String
  deriving DecidableEq

structure ContainerInfo where
  id : String
  name : String
  ip_address : Option String
  networks : List (String × NetworkInfo)
  domain_names : List String
  running : Bool
  deriving DecidableEq

/-- A container is considered exposed if it is running and has an
    IP address (global, or on at least one network). -/
def has_exposed_ports (ci : ContainerInfo) : Bool :=
  ci.running && (ci.ip_address.isSome || !ci.networks.isEmpty)

/-! Section: Hostname resolver (get_hostnames in types rs) -/

/-- Hostnames contributed to one network by the DOMAIN_NAME tokens: a
    token of the form net:hostname contributes the bare hostname when the
    network name equals net or ends with an underscore or hyphen followed
    by net; a colon-free token is fanned out to every network when the
    record has no global address. -/
def domainHosts (ipNone : Bool) (network_name : String) : List String → List String
  | [] => []
  | domain :: rest =>
    match splitOnceStr domain ':' with
    | some (net, hostname) =>
      if network_name == net
          || endsWithStr network_name ("_" ++ net)
          || endsWithStr network_name ("-" ++ net) then
        hostname :: domainHosts ipNone network_name rest
      else
        domainHosts ipNone network_name rest
    | none =>
      if ipNone then domain :: domainHosts ipNone network_name rest
      else domainHosts ipNone network_name rest

/-- The hostname set of one network attachment: the container name and
    every alias qualified by the network name, then the domain-token
    contributions. -/
def networkHosts (ci : ContainerInfo) (network_name : String) (ni : NetworkInfo) : List String :=
  ((ci.name ++ "." ++ network_name) :: ni.aliases.map (fun a => a ++ "." ++ network_name))
    ++ domainHosts ci.ip_address.isNone network_name ci.domain_names

/-- The optional leading group for the global address: the simple
    name+tld hostname followed by every domain token verbatim. -/
def globalGroups (ci : ContainerInfo) (tld : String) : List (String × List String) :=
  match ci.ip_address with
  | some ip => [(ip, (ci.name ++ tld) :: ci.domain_names)]
  | none => []

/-- Per-network groups, one per attachment with a non-empty hostname set. -/
def networkGroups (ci : ContainerInfo) : List (String × List String) :=
  ci.networks.filterMap fun p =>
    let hosts := networkHosts ci p.1 p.2
    if hosts.isEmpty then none else some (p.2.ip_address, hosts)

def get_hostnames (ci : ContainerInfo) (tld : String) : List (String × List String) :=
  globalGroups ci tld ++ networkGroups ci

/-! Section: State store and orchestrator (synchronizer rs) -/

/-- The concurrent map of active containers, modelled as an association
    list with insert-replaces-wholesale semantics. -/
abbrev Store := List (String × ContainerInfo)

def mapInsert {α : Type} (st : List (String × α)) (k : String) (v : α) :
    List (String × α) :=
  (k, v) :: st.filter (fun p => p.1 != k)

def mapRemove {α : Type} (st : List (String × α)) (k : String) :
    List (String × α) :=
  st.filter (fun p => p.1 != k)

def isAttachAction (a : String) : Bool :=
  a == "start" || a == "unpause" || a == "connect"

def isDetachAction (a : String) : Bool :=
  a == "die" || a == "stop" || a == "kill" || a == "pause"
    || a == "disconnect" || a == "destroy"

/-- handle_event: events without an actor are ignored; on an attach-class
    action the inspected container is inserted when it passes the
    eligibility predicate; on a detach-class action the record is removed;
    every other action is ignored.  The inspection outcome is passed in
    (none models both an inspection failure and a response that yields no
    record). -/
def handleEvent (st : Store) (action actorId : String)
    (inspected : Option ContainerInfo) : Store :=
  if actorId = "" then st
  else if isAttachAction action then
    match inspected with
    | some info => if has_exposed_ports info then mapInsert st actorId info else st
    | none => st
  else if isDetachAction action then mapRemove st actorId
  else st

/-- One step of the resync loop: a container with an empty id or a failed
    inspection is skipped, and an inspected container is inserted exactly
    when it passes the eligibility predicate. -/
def resyncStep (st : Store) (p : String × Option ContainerInfo) : Store :=
  if p.1 = "" then st
  else
    match p.2 with
    | some info => if has_exposed_ports info then mapInsert st p.1 info else st
    | none => st

/-- synchronize: the store is cleared and every listed container whose
    inspection succeeds and passes the eligibility predicate is inserted;
    containers with an empty id or a failed inspection are skipped. -/
def fullResync (inspections : List (String × Option ContainerInfo)) : Store :=
  inspections.foldl resyncStep []

/-- The states of the active-container store reachable from startup
    through full resyncs and event handling. -/
inductive StoreReachable : Store → Prop
  | init : StoreReachable []
  | resync (inspections : List (String × Option ContainerInfo)) :
      StoreReachable (fullResync inspections)
  | event (st : Store) (action actorId : String) (inspected : Option ContainerInfo) :
      StoreReachable st → StoreReachable (handleEvent st action actorId inspected)

/-! Section: Debounce scheduler (process_pending_writes in synchronizer rs)

The scheduler is embedded as a timed event model: the input is the
time-ordered list of ScheduleWrite signal instants, and the output the
list of write instants.  The inner select loop keeps a deadline of
debounce-ms after the most recent signal; a signal arriving at or before
the deadline restarts the timer, and when the deadline passes in silence
one write is performed and the activity returns to idle. -/

def debounceGo (D : Nat) : Nat → List Nat → List Nat
  | deadline, [] => [deadline]
  | deadline, t :: rest =>
    if t ≤ deadline then debounceGo D (t + D) rest
    else deadline :: debounceGo D (t + D) rest

def debounceWrites (D : Nat) : List Nat → List Nat
  | [] => []
  | t :: rest => debounceGo D (t + D) rest

/-- The number of quiescent periods of a time-ordered signal list: maximal
    runs of signals in which consecutive gaps are at most the debounce
    delay. -/
def quietPeriods (D : Nat) : List Nat → Nat
  | [] => 0
  | [_] => 1
  | a :: b :: rest => (if a + D < b then 1 else 0) + quietPeriods D (b :: rest)

/-! Section: Container inspection (extract_container_info in synchronizer rs) -/

structure InspectState where
  running : Option Bool
  deriving DecidableEq

structure InspectNetwork where
  ip_address : Option String
  aliases : Option (List String)
  deriving DecidableEq

structure InspectNetworkSettings where
  ports : Option (List String)
  networks : Option (List (String × InspectNetwork))
  deriving DecidableEq

structure InspectConfig where
  env : Option (List String)
  labels : Option (List (String × String))
  deriving DecidableEq

structure InspectResponse where
  id : Option String
  name : Option String
  state : Option InspectState
  network_settings : Option InspectNetworkSettings
  config : Option InspectConfig
  deriving DecidableEq

/-- Comma separation of a DOMAIN_NAME value: split, trim, drop empties. -/
def splitCommaTrim (v : String) : List String :=
  (((splitOnChar ',' v.data).map (fun l => String.mk (trimChars l))).filter
    (fun s => s != ""))

def domainNameKey : String := "DOMAIN_NAME="

def orbstackKey : String := "dev.orbstack.domains"

/-- One step of the network-attachment loop: an attachment is kept only
    when it reports a non-empty address, and the container name is added
    to its aliases when absent. -/
def netStep (name : String) (acc : List (String × NetworkInfo))
    (q : String × InspectNetwork) : List (String × NetworkInfo) :=
  match q.2.ip_address with
  | some ip =>
    if ip != "" then
      mapInsert acc q.1
        ⟨ip,
          if (q.2.aliases.getD []).contains name then q.2.aliases.getD []
          else q.2.aliases.getD [] ++ [name]⟩
    else acc
  | none => acc

def extractNetworks (name : String) (ns : InspectNetworkSettings) :
    List (String × NetworkInfo) :=
  (ns.networks.getD []).foldl (netStep name) []

/-- Domain tokens from DOMAIN_NAME environment entries followed by those
    from the orbstack domains label. -/
def extractDomains (cfg? : Option InspectConfig) : List String :=
  match cfg? with
  | some cfg =>
    ((cfg.env.getD []).foldl
      (fun acc e =>
        if isPre domainNameKey.data e.data then
          acc ++ splitCommaTrim (String.mk (e.data.drop domainNameKey.data.length))
        else acc)
      [])
      ++ (match (cfg.labels.getD []).lookup orbstackKey with
          | some v => splitCommaTrim v
          | none => [])
  | none => []

/-- extract_container_info: missing id, name, state or network settings
    yield no record; a container that neither has ports nor is running
    yields no record; network attachments keep only a non-empty address
    and always gain the container name as an alias when absent; domain
    tokens come from DOMAIN_NAME environment entries and the orbstack
    domains label; the global address is always left unset. -/
def extract_container_info (c : InspectResponse) : Option ContainerInfo :=
  match c.id, c.name, c.state, c.network_settings with
  | some id, some name0, some state, some ns =>
    let name := String.mk (name0.data.dropWhile (fun ch => ch = '/'))
    let running := state.running.getD false
    let has_ports := match ns.ports with
      | some p => !p.isEmpty
      | none => false
    if !has_ports && !running then none
    else
      some ⟨id, name, none, extractNetworks name ns, extractDomains c.config, running⟩
  | _, _, _, _ => none

/-! Section: Managed-section patcher (write_hosts_file_immediate in synchronizer rs) -/

def START_TAG : String := "## docker-hostmanager-start"

def END_TAG : String := "## docker-hostmanager-end"

def isStartLine (l : String) : Bool := trimChars l.data == START_TAG.data

def isEndLine (l : String) : Bool := trimChars l.data == END_TAG.data

/-- Index of the first element satisfying a predicate. -/
def firstIdx (p : String → Bool) : List String → Option Nat
  | [] => none
  | a :: l => if p a then some 0 else (firstIdx p l).map (· + 1)

/-- The fallback path: keep every line; when the new managed content is
    non-empty, append it bracketed by the tags, preceded by one blank line
    when the current last line is non-empty. -/
def appendSection (lines entries : List String) : List String :=
  if entries.isEmpty then lines
  else
    (match lines.getLast? with
      | some l => if l = "" then lines else lines ++ [""]
      | none => lines)
      ++ START_TAG :: (entries ++ [END_TAG])

/-- The managed-section patcher over file lines: when the first line
    trimming to the start tag precedes the first line trimming to the end
    tag the section is spliced (and dropped entirely for empty content);
    otherwise the fallback append path runs. -/
def patchLines (lines entries : List String) : List String :=
  match firstIdx isStartLine lines, firstIdx isEndLine lines with
  | some s, some e =>
    if s < e then
      lines.take s
        ++ (if entries.isEmpty then [] else START_TAG :: (entries ++ [END_TAG]))
        ++ lines.drop (e + 1)
    else appendSection lines entries
  | _, _ => appendSection lines entries

/-- The full read-patch-serialize cycle on file content: split into lines,
    patch, join with line feeds and one trailing line feed. -/
def patchContent (c : String) (entries : List String) : String :=
  String.mk (joinChar '\n' ((patchLines (rustLines c) entries).map String.data) ++ ['\n'])

/-! Section: Cleanliness predicates used by the idempotence analysis -/

/-- No line of the list trims to either sentinel tag. -/
def noMarker (L : List String) : Prop :=
  ∀ l ∈ L, isStartLine l = false ∧ isEndLine l = false

/-- The file's lines are marker-clean: either they contain no sentinel
    line at all, or the first start tag precedes the first end tag and no
    sentinel line follows the end tag. -/
def markerClean (L : List String) : Prop :=
  noMarker L ∨
    ∃ s e, firstIdx isStartLine L = some s ∧ firstIdx isEndLine L = some e ∧
      s < e ∧ noMarker (L.drop (e + 1))

/-- A managed line is serializable and unambiguous: it contains no line
    feed, does not end in a carriage return, and trims to neither tag. -/
def cleanEntry (l : String) : Prop :=
  '\n' ∉ l.data ∧ l.data.getLast? ≠ some '\r' ∧
    isStartLine l = false ∧ isEndLine l = false

/-! Section: General helper lemmas -/

theorem strData_append (s t : String) : (s ++ t).data = s.data ++ t.data := by
  cases s; cases t; rfl

theorem strMk_data (s : String) : String.mk s.data = s := by
  cases s; rfl

/-! Section: Debounce scheduler lemmas -/

theorem debounceGo_lb (D : Nat) (rest : List Nat) : ∀ (dl : Nat),
    rest.Pairwise (· ≤ ·) → (∀ x ∈ rest, dl ≤ x + D) →
    ∀ w ∈ debounceGo D dl rest, dl ≤ w ∧ ∀ t ∈ rest, t ≤ w → t + D ≤ w := by
  induction rest with
  | nil =>
    intro dl _ _ w hw
    simp only [debounceGo, List.mem_singleton] at hw
    subst hw
    exact ⟨Nat.le_refl _, by simp⟩
  | cons t r ih =>
    intro dl hsort hdl w hw
    rw [List.pairwise_cons] at hsort
    obtain ⟨ht, hr⟩ := hsort
    have hdl' : ∀ x ∈ r, t + D ≤ x + D := fun x hx => Nat.add_le_add_right (ht x hx) D
    simp only [debounceGo] at hw
    by_cases hle : t ≤ dl
    · rw [if_pos hle] at hw
      have hmain := ih (t + D) hr hdl' w hw
      refine ⟨Nat.le_trans (hdl t (by simp)) hmain.1, ?_⟩
      intro x hx hxw
      rcases List.mem_cons.mp hx with rfl | hx'
      · exact hmain.1
      · exact hmain.2 x hx' hxw
    · rw [if_neg hle] at hw
      rcases List.mem_cons.mp hw with rfl | hw'
      · refine ⟨Nat.le_refl _, ?_⟩
        intro x hx hxw
        rcases List.mem_cons.mp hx with rfl | hx'
        · omega
        · have := ht x hx'
          omega
      · have hmain := ih (t + D) hr hdl' w hw'
        refine ⟨?_, ?_⟩
        · have := hmain.1
          omega
        · intro x hx hxw
          rcases List.mem_cons.mp hx with rfl | hx'
          · exact hmain.1
          · exact hmain.2 x hx' hxw

theorem debounceGo_coalesce (D : Nat) (r : List Nat) : ∀ (t : Nat)
    (h : (t :: r) ≠ []), (t :: r).Chain' (fun a b => b < a + D) →
    debounceGo D (t + D) r = [(t :: r).getLast h + D] := by
  induction r with
  | nil => intro t h _; simp [debounceGo]
  | cons u r' ih =>
    intro t h hch
    rw [List.chain'_cons] at hch
    obtain ⟨hut, hch'⟩ := hch
    simp only [debounceGo]
    rw [if_pos (Nat.le_of_lt hut)]
    rw [ih u (by simp) hch']
    simp [List.getLast_cons]

theorem debounceGo_count (D : Nat) (r : List Nat) : ∀ t : Nat,
    (debounceGo D (t + D) r).length = quietPeriods D (t :: r) := by
  induction r with
  | nil => intro t; simp [debounceGo, quietPeriods]
  | cons u r' ih =>
    intro t
    simp only [debounceGo, quietPeriods]
    by_cases h : u ≤ t + D
    · rw [if_pos h, ih u, if_neg (by omega)]
      omega
    · rw [if_neg h, List.length_cons, ih u, if_pos (by omega)]
      omega

/-- C3: for every time-ordered sequence of ScheduleWrite signals, no write
    occurs earlier than the debounce delay after the most recent signal at
    or before it, the number of writes equals the number of quiescent
    periods (exactly one write per quiescent period), and signals spaced
    less than the debounce delay apart coalesce into a single write that
    occurs the debounce delay after the last signal. -/
theorem C3_debounce (D : Nat) (ts : List Nat) (hsort : ts.Pairwise (· ≤ ·)) :
    (∀ w ∈ debounceWrites D ts, ∀ t ∈ ts, t ≤ w → t + D ≤ w) ∧
    (debounceWrites D ts).length = quietPeriods D ts ∧
    ∀ (h : ts ≠ []), ts.Chain' (fun a b => b < a + D) →
      debounceWrites D ts = [ts.getLast h + D] := by
  cases ts with
  | nil =>
    refine ⟨by simp [debounceWrites], by simp [debounceWrites, quietPeriods], ?_⟩
    intro h
    exact absurd rfl h
  | cons t r =>
    rw [List.pairwise_cons] at hsort
    refine ⟨?_, ?_, ?_⟩
    · intro w hw x hx hxw
      have hmain := debounceGo_lb D r (t + D) hsort.2
        (fun y hy => Nat.add_le_add_right (hsort.1 y hy) D) w hw
      rcases List.mem_cons.mp hx with rfl | hx'
      · exact hmain.1
      · exact hmain.2 x hx' hxw
    · exact debounceGo_count D r t
    · intro h hch
      exact debounceGo_coalesce D r t h hch

/-- Witness for C3 at a concrete input: three signals at instants 0, 50
    and 90 with a 100ms debounce yield exactly one write at instant 190. -/
theorem C3_debounce_witness : debounceWrites 100 [0, 50, 90] = [190] := by
  have h := (C3_debounce 100 [0, 50, 90] (by decide)).2.2 (by simp)
    (by simp [List.chain'_cons])
  simpa using h

/-! Section: State-store invariant lemmas -/

theorem mapInsert_forall {α : Type} (P : String × α → Prop)
    {st : List (String × α)} {k : String} {v : α}
    (hst : ∀ p ∈ st, P p) (hv : P (k, v)) :
    ∀ p ∈ mapInsert st k v, P p := by
  intro p hp
  rcases List.mem_cons.mp hp with rfl | hp'
  · exact hv
  · exact hst p (List.mem_of_mem_filter hp')

theorem resyncStep_inv {st : Store} (p : String × Option ContainerInfo)
    (hst : ∀ q ∈ st, has_exposed_ports q.2 = true) :
    ∀ q ∈ resyncStep st p, has_exposed_ports q.2 = true := by
  intro q hq
  unfold resyncStep at hq
  split at hq
  · exact hst q hq
  · split at hq
    · next info =>
      split at hq
      · next hexp =>
        rcases List.mem_cons.mp hq with rfl | hq'
        · exact hexp
        · exact hst q (List.mem_of_mem_filter hq')
      · exact hst q hq
    · exact hst q hq

theorem fullResync_inv (inspections : List (String × Option ContainerInfo)) :
    ∀ q ∈ fullResync inspections, has_exposed_ports q.2 = true := by
  unfold fullResync
  have main : ∀ (l : List (String × Option ContainerInfo)) (st0 : Store),
      (∀ q ∈ st0, has_exposed_ports q.2 = true) →
      ∀ q ∈ l.foldl resyncStep st0, has_exposed_ports q.2 = true := by
    intro l
    induction l with
    | nil => intro st0 h0 q hq; exact h0 q hq
    | cons p l ih =>
      intro st0 h0 q hq
      rw [List.foldl_cons] at hq
      exact ih (resyncStep st0 p) (resyncStep_inv p h0) q hq
  exact main inspections [] (by simp)

theorem handleEvent_inv {st : Store} (action actorId : String)
    (inspected : Option ContainerInfo)
    (hst : ∀ q ∈ st, has_exposed_ports q.2 = true) :
    ∀ q ∈ handleEvent st action actorId inspected, has_exposed_ports q.2 = true := by
  intro q hq
  unfold handleEvent at hq
  split at hq
  · exact hst q hq
  · split at hq
    · split at hq
      · next info =>
        split at hq
        · next hexp =>
          rcases List.mem_cons.mp hq with rfl | hq'
          · exact hexp
          · exact hst q (List.mem_of_mem_filter hq')
        · exact hst q hq
      · exact hst q hq
    · split at hq
      · exact hst q (List.mem_of_mem_filter hq)
      · exact hst q hq

/-- C4: in every state of the store reachable through full resyncs and
    event handling, every stored record passes the eligibility predicate:
    it is running and has a global address or a non-empty network map.  In
    particular a record with running set to false is never present. -/
theorem C4_store_invariant (st : Store) (h : StoreReachable st) :
    ∀ id info, (id, info) ∈ st →
      info.running = true ∧ (info.ip_address.isSome = true ∨ info.networks ≠ []) := by
  have inv : ∀ q ∈ st, has_exposed_ports q.2 = true := by
    induction h with
    | init => intro q hq; simp at hq
    | resync inspections => exact fullResync_inv inspections
    | event st' action actorId inspected _ ih =>
      exact handleEvent_inv action actorId inspected ih
  intro id info hmem
  have hb := inv (id, info) hmem
  unfold has_exposed_ports at hb
  rw [Bool.and_eq_true, Bool.or_eq_true] at hb
  refine ⟨hb.1, ?_⟩
  rcases hb.2 with h1 | h1
  · exact Or.inl h1
  · right
    intro hnil
    rw [hnil] at h1
    simp at h1

/-- Witness for C4 at a concrete input: a single attach event for an
    eligible running container yields a reachable store containing it, so
    the invariant applies to that record. -/
theorem C4_store_invariant_witness :
    (ContainerInfo.mk "abc" "nginx" (some "172.17.0.2") [] [] true).running = true := by
  have h := C4_store_invariant
    (handleEvent [] "start" "abc"
      (some (ContainerInfo.mk "abc" "nginx" (some "172.17.0.2") [] [] true)))
    (StoreReachable.event [] "start" "abc"
      (some (ContainerInfo.mk "abc" "nginx" (some "172.17.0.2") [] [] true))
      StoreReachable.init)
    "abc" (ContainerInfo.mk "abc" "nginx" (some "172.17.0.2") [] [] true)
    (by decide)
  exact h.1

/-! Section: Hostname resolver lemmas -/

theorem splitOnceChars_pre (c : Char) (pre suf : List Char) (h : c ∉ pre) :
    splitOnceChars c (pre ++ c :: suf) = some (pre, suf) := by
  induction pre with
  | nil => simp [splitOnceChars]
  | cons x p ih =>
    have hx : ¬ x = c := fun e => h (e ▸ List.mem_cons_self x p)
    have h' : c ∉ p := fun hm => h (List.mem_cons_of_mem x hm)
    simp [splitOnceChars, hx, ih h']

theorem splitOnceStr_colon (net host : String) (h : ':' ∉ net.data) :
    splitOnceStr (net ++ ":" ++ host) ':' = some (net, host) := by
  unfold splitOnceStr
  have hd : (net ++ ":" ++ host).data = net.data ++ ':' :: host.data := by
    rw [strData_append, strData_append]
    simp [List.append_assoc]
  rw [hd, splitOnceChars_pre ':' _ _ h]
  simp [strMk_data]

/-- C5: for a record attached to the network nn carrying the domain token
    net:host, the bare host is appended to that network's hostname set
    exactly when nn equals net or ends with an underscore or a hyphen
    followed by net.  The freshness hypotheses rule out host coinciding
    with one of the always-present network-qualified names. -/
theorem C5_network_suffix (id name nn net host : String) (ni : NetworkInfo)
    (hcolon : ':' ∉ net.data)
    (h1 : host ≠ name ++ "." ++ nn)
    (h2 : ∀ a ∈ ni.aliases, host ≠ a ++ "." ++ nn) :
    host ∈ networkHosts
        (ContainerInfo.mk id name none [(nn, ni)] [net ++ ":" ++ host] true) nn ni ↔
      (nn = net ∨ endsWithStr nn ("_" ++ net) = true ∨
        endsWithStr nn ("-" ++ net) = true) := by
  have hsplit := splitOnceStr_colon net host hcolon
  have hBP : (nn == net || endsWithStr nn ("_" ++ net)
      || endsWithStr nn ("-" ++ net)) = true ↔
      (nn = net ∨ endsWithStr nn ("_" ++ net) = true ∨
        endsWithStr nn ("-" ++ net) = true) := by
    simp [Bool.or_eq_true, beq_iff_eq, or_assoc]
  rw [← hBP]
  unfold networkHosts
  simp only [domainHosts, hsplit]
  have hbase : host ∉ (name ++ "." ++ nn) :: ni.aliases.map (fun a => a ++ "." ++ nn) := by
    intro hmem
    rcases List.mem_cons.mp hmem with hx | hx
    · exact h1 hx
    · rcases List.mem_map.mp hx with ⟨a, ha, hae⟩
      exact h2 a ha hae.symm
  by_cases hcond : (nn == net || endsWithStr nn ("_" ++ net)
      || endsWithStr nn ("-" ++ net)) = true
  · simp [hcond]
  · have hcond' : (nn == net || endsWithStr nn ("_" ++ net)
        || endsWithStr nn ("-" ++ net)) = false := by
      simpa using hcond
    simp only [hcond', Bool.false_eq_true, if_false, hcond, iff_false]
    intro hmem
    rcases List.mem_append.mp hmem with hx | hx
    · exact hbase hx
    · simp [domainHosts] at hx

/-- Witness for C5 at the spec's concrete inputs: the token
    default:api.example.com matches the networks default,
    myproject_default and stack-default but not mydefault. -/
theorem C5_network_suffix_witness :
    ("api.example.com" ∈ networkHosts
      (ContainerInfo.mk "x" "web" none [("default", NetworkInfo.mk "172.22.0.2" ["web"])]
        ["default" ++ ":" ++ "api.example.com"] true) "default"
      (NetworkInfo.mk "172.22.0.2" ["web"])) ∧
    ("api.example.com" ∈ networkHosts
      (ContainerInfo.mk "x" "web" none
        [("myproject_default", NetworkInfo.mk "172.20.0.5" ["web"])]
        ["default" ++ ":" ++ "api.example.com"] true) "myproject_default"
      (NetworkInfo.mk "172.20.0.5" ["web"])) ∧
    ("api.example.com" ∈ networkHosts
      (ContainerInfo.mk "x" "web" none
        [("stack-default", NetworkInfo.mk "172.21.0.3" ["web"])]
        ["default" ++ ":" ++ "api.example.com"] true) "stack-default"
      (NetworkInfo.mk "172.21.0.3" ["web"])) ∧
    ¬ ("api.example.com" ∈ networkHosts
      (ContainerInfo.mk "x" "web" none
        [("mydefault", NetworkInfo.mk "172.23.0.2" ["web"])]
        ["default" ++ ":" ++ "api.example.com"] true) "mydefault"
      (NetworkInfo.mk "172.23.0.2" ["web"])) := by
  refine ⟨?_, ?_, ?_, ?_⟩
  · exact (C5_network_suffix "x" "web" "default" "default" "api.example.com"
      (NetworkInfo.mk "172.22.0.2" ["web"]) (by decide) (by decide) (by decide)).mpr
      (Or.inl rfl)
  · exact (C5_network_suffix "x" "web" "myproject_default" "default" "api.example.com"
      (NetworkInfo.mk "172.20.0.5" ["web"]) (by decide) (by decide) (by decide)).mpr
      (Or.inr (Or.inl (by decide)))
  · exact (C5_network_suffix "x" "web" "stack-default" "default" "api.example.com"
      (NetworkInfo.mk "172.21.0.3" ["web"]) (by decide) (by decide) (by decide)).mpr
      (Or.inr (Or.inr (by decide)))
  · intro hmem
    have := (C5_network_suffix "x" "web" "mydefault" "default" "api.example.com"
      (NetworkInfo.mk "172.23.0.2" ["web"]) (by decide) (by decide) (by decide)).mp hmem
    rcases this with h | h | h
    · exact absurd h (by decide)
    · exact absurd h (by decide)
    · exact absurd h (by decide)

/-- C6: for a record with a global address, the resolver's first group is
    that address paired with the simple name+tld hostname followed by
    every domain token verbatim and unfiltered; with no domain tokens and
    no networks the output is exactly that one group. -/
theorem C6_global_entry (ci : ContainerInfo) (tld ip : String)
    (h : ci.ip_address = some ip) :
    (get_hostnames ci tld).head? = some (ip, (ci.name ++ tld) :: ci.domain_names) ∧
    (ci.domain_names = [] → ci.networks = [] →
      get_hostnames ci tld = [(ip, [ci.name ++ tld])]) := by
  constructor
  · unfold get_hostnames globalGroups
    rw [h]
    simp
  · intro hd hn
    unfold get_hostnames globalGroups networkGroups
    rw [h, hd, hn]
    simp

/-- Witness for C6 at the spec's concrete input: nginx with global
    address 172.17.0.2, no tokens, no networks, tld .docker. -/
theorem C6_global_entry_witness :
    get_hostnames (ContainerInfo.mk "abc" "nginx" (some "172.17.0.2") [] [] true)
      ".docker" = [("172.17.0.2", ["nginx.docker"])] := by
  have h := (C6_global_entry
    (ContainerInfo.mk "abc" "nginx" (some "172.17.0.2") [] [] true)
    ".docker" "172.17.0.2" rfl).2 rfl rfl
  exact h.trans (by decide)

/-! Section: Container inspection lemmas -/

theorem netStep_inv (name : String) (acc : List (String × NetworkInfo))
    (q : String × InspectNetwork)
    (h : ∀ p ∈ acc, name ∈ p.2.aliases ∧ p.2.ip_address ≠ "") :
    ∀ p ∈ netStep name acc q, name ∈ p.2.aliases ∧ p.2.ip_address ≠ "" := by
  intro p hp
  unfold netStep at hp
  split at hp
  · next ip =>
    split at hp
    · next hip =>
      rcases List.mem_cons.mp hp with rfl | hp'
      · refine ⟨?_, by simpa using hip⟩
        dsimp only
        split
        · next hc => exact List.mem_of_elem_eq_true hc
        · exact List.mem_append_right _ (List.mem_singleton.mpr rfl)
      · exact h p (List.mem_of_mem_filter hp')
    · exact h p hp
  · exact h p hp

theorem extractNetworks_inv (name : String) (ns : InspectNetworkSettings) :
    ∀ p ∈ extractNetworks name ns, name ∈ p.2.aliases ∧ p.2.ip_address ≠ "" := by
  unfold extractNetworks
  have main : ∀ (l : List (String × InspectNetwork)) (acc : List (String × NetworkInfo)),
      (∀ p ∈ acc, name ∈ p.2.aliases ∧ p.2.ip_address ≠ "") →
      ∀ p ∈ l.foldl (netStep name) acc, name ∈ p.2.aliases ∧ p.2.ip_address ≠ "" := by
    intro l
    induction l with
    | nil => intro acc h0 p hp; exact h0 p hp
    | cons q l ih =>
      intro acc h0 p hp
      rw [List.foldl_cons] at hp
      exact ih (netStep name acc q) (netStep_inv name acc q h0) p hp
  exact main _ [] (by simp)

/-- Shared inversion of extract_container_info: every produced record has
    its global address unset, and every kept network attachment carries
    the container name among its aliases and a non-empty address. -/
theorem extract_props (c : InspectResponse) (info : ContainerInfo)
    (h : extract_container_info c = some info) :
    info.ip_address = none ∧
    ∀ p ∈ info.networks, info.name ∈ p.2.aliases ∧ p.2.ip_address ≠ "" := by
  obtain ⟨cid, cname, cstate, cns, ccfg⟩ := c
  cases cid with
  | none => simp [extract_container_info] at h
  | some id =>
  cases cname with
  | none => simp [extract_container_info] at h
  | some name0 =>
  cases cstate with
  | none => simp [extract_container_info] at h
  | some state =>
  cases cns with
  | none => simp [extract_container_info] at h
  | some ns =>
  simp only [extract_container_info] at h
  split at h
  · exact absurd h (by simp)
  · rw [Option.some_inj] at h
    subst h
    refine ⟨rfl, ?_⟩
    exact extractNetworks_inv _ ns

/-- C8 counterexample: when the runtime inspection already reports the
    container's own name twice among an attachment's aliases, the code
    keeps the duplicate list unchanged, so the name does not occur exactly
    once — the produced record for container web has aliases web, web. -/
theorem C8_counterexample :
    (extract_container_info
        (InspectResponse.mk (some "i1") (some "/web")
          (some (InspectState.mk (some true)))
          (some (InspectNetworkSettings.mk none
            (some [("n1", InspectNetwork.mk (some "1.2.3.4") (some ["web", "web"]))])))
          none)).map
      (fun i => i.networks.map (fun p => p.2.aliases.count i.name)) = some [2] := by
  decide

/-- C8 as amended: every network attachment of a record produced from a
    runtime inspection contains the container's own name among its aliases
    (it is appended when absent, but an incoming duplicate is not
    removed). -/
theorem C8_amended (c : InspectResponse) (info : ContainerInfo)
    (h : extract_container_info c = some info) :
    ∀ nn ni, (nn, ni) ∈ info.networks → info.name ∈ ni.aliases := by
  intro nn ni hmem
  exact ((extract_props c info h).2 (nn, ni) hmem).1

/-- Witness for the amended C8 at a concrete input: an attachment whose
    reported aliases lack the container name gains it. -/
theorem C8_amended_witness :
    "web" ∈ (NetworkInfo.mk "1.2.3.4" ["alias1", "web"]).aliases := by
  have h := C8_amended
    (InspectResponse.mk (some "i2") (some "/web")
      (some (InspectState.mk (some true)))
      (some (InspectNetworkSettings.mk none
        (some [("n1", InspectNetwork.mk (some "1.2.3.4") (some ["alias1"]))])))
      none)
    (ContainerInfo.mk "i2" "web" none
      [("n1", NetworkInfo.mk "1.2.3.4" ["alias1", "web"])] [] true)
    (by decide)
    "n1" (NetworkInfo.mk "1.2.3.4" ["alias1", "web"]) (by decide)
  exact h

/-- C9: every record produced from a runtime inspection has its global
    address unset, so the resolver's global-address branch is never taken
    on it: its output consists of the per-network groups only, and no
    domain token reaches the output unfiltered through that branch. -/
theorem C9_no_global_branch (c : InspectResponse) (info : ContainerInfo)
    (h : extract_container_info c = some info) :
    info.ip_address = none ∧
    ∀ tld, get_hostnames info tld = networkGroups info := by
  have hip := (extract_props c info h).1
  refine ⟨hip, ?_⟩
  intro tld
  unfold get_hostnames globalGroups
  rw [hip]
  simp

/-- Witness for C9 at a concrete input. -/
theorem C9_no_global_branch_witness :
    (ContainerInfo.mk "i3" "web" none
      [("n1", NetworkInfo.mk "1.2.3.4" ["web"])] ["d1:h1"] true).ip_address = none := by
  have h := C9_no_global_branch
    (InspectResponse.mk (some "i3") (some "/web")
      (some (InspectState.mk (some true)))
      (some (InspectNetworkSettings.mk none
        (some [("n1", InspectNetwork.mk (some "1.2.3.4") (some ["web"]))])))
      (some (InspectConfig.mk (some ["DOMAIN_NAME=d1:h1"]) none)))
    (ContainerInfo.mk "i3" "web" none
      [("n1", NetworkInfo.mk "1.2.3.4" ["web"])] ["d1:h1"] true)
    (by decide)
  exact h.1

/-- C10: every record produced from a runtime inspection keeps only
    network attachments with a non-empty address; hence when its network
    map is non-empty, some attachment has a non-empty address. -/
theorem C10_nonempty_addresses (c : InspectResponse) (info : ContainerInfo)
    (h : extract_container_info c = some info) :
    (∀ nn ni, (nn, ni) ∈ info.networks → ni.ip_address ≠ "") ∧
    (info.networks ≠ [] → ∃ p ∈ info.networks, p.2.ip_address ≠ "") := by
  have hall := (extract_props c info h).2
  constructor
  · intro nn ni hmem
    exact (hall (nn, ni) hmem).2
  · intro hne
    cases hnet : info.networks with
    | nil => exact absurd hnet hne
    | cons p l =>
      refine ⟨p, List.mem_cons_self p l, ?_⟩
      exact (hall p (hnet ▸ List.mem_cons_self p l)).2

/-- Witness for C10 at a concrete input: an attachment reported with an
    empty address is dropped, one with a non-empty address is kept. -/
theorem C10_nonempty_addresses_witness :
    (NetworkInfo.mk "1.2.3.4" ["web"]).ip_address ≠ "" := by
  have h := C10_nonempty_addresses
    (InspectResponse.mk (some "i4") (some "/web")
      (some (InspectState.mk (some true)))
      (some (InspectNetworkSettings.mk none
        (some [("bad", InspectNetwork.mk (some "") (some ["x"])),
               ("n1", InspectNetwork.mk (some "1.2.3.4") (some ["web"]))])))
      none)
    (ContainerInfo.mk "i4" "web" none
      [("n1", NetworkInfo.mk "1.2.3.4" ["web"])] [] true)
    (by decide)
  exact h.1 "n1" (NetworkInfo.mk "1.2.3.4" ["web"]) (by decide)

/-! Section: Patcher index and splitting lemmas -/

theorem firstIdx_eq_none {p : String → Bool} {L : List String}
    (h : ∀ x ∈ L, p x = false) : firstIdx p L = none := by
  induction L with
  | nil => rfl
  | cons a l ih =>
    have ha : p a = false := h a (List.mem_cons_self a l)
    simp [firstIdx, ha, ih (fun x hx => h x (List.mem_cons_of_mem a hx))]

theorem firstIdx_cons_true {p : String → Bool} {a : String} (l : List String)
    (h : p a = true) : firstIdx p (a :: l) = some 0 := by
  simp [firstIdx, h]

theorem firstIdx_append_some {p : String → Bool} {A : List String}
    (h : ∀ x ∈ A, p x = false) (B : List String) {n : Nat}
    (hB : firstIdx p B = some n) : firstIdx p (A ++ B) = some (A.length + n) := by
  induction A with
  | nil => simpa using hB
  | cons a l ih =>
    have ha : p a = false := h a (List.mem_cons_self a l)
    have ih' := ih (fun x hx => h x (List.mem_cons_of_mem a hx))
    simp [firstIdx, ha, ih', Option.some.injEq]
    omega

theorem firstIdx_take {p : String → Bool} {L : List String} {n : Nat}
    (h : firstIdx p L = some n) : ∀ x ∈ L.take n, p x = false := by
  induction L generalizing n with
  | nil => intro x hx; simp at hx
  | cons a l ih =>
    by_cases ha : p a = true
    · rw [firstIdx_cons_true l ha] at h
      cases h
      intro x hx
      simp at hx
    · have ha' : p a = false := by simpa using ha
      simp only [firstIdx, ha', Bool.false_eq_true, if_false] at h
      rcases Option.map_eq_some'.mp h with ⟨m, hm, hmn⟩
      subst hmn
      intro x hx
      rw [List.take_succ_cons] at hx
      rcases List.mem_cons.mp hx with rfl | hx'
      · exact ha'
      · exact ih hm x hx'

theorem take_len_append {α : Type} (A B : List α) : (A ++ B).take A.length = A := by
  induction A with
  | nil => simp
  | cons a l ih => simp [ih]

theorem drop_len_append {α : Type} (A B : List α) : (A ++ B).drop A.length = B := by
  induction A with
  | nil => simp
  | cons a l ih => simp [ih]

/-! Section: Sentinel-tag facts -/

theorem tag_facts :
    isStartLine START_TAG = true ∧ isEndLine START_TAG = false ∧
    isStartLine END_TAG = false ∧ isEndLine END_TAG = true ∧
    isStartLine "" = false ∧ isEndLine "" = false := by decide

theorem start_not_end {l : String} (h : isStartLine l = true) :
    isEndLine l = false := by
  unfold isStartLine at h
  have h1 : trimChars l.data = START_TAG.data := by simpa using h
  unfold isEndLine
  rw [h1]
  decide

/-! Section: C1: the splice branch -/

/-- C1 counterexample: a file whose first end-tag line precedes its first
    start-tag line still contains a start-tag line strictly before an
    end-tag line, yet the patcher does not splice there — it runs the
    append path instead, so the claimed output shape is not produced. -/
theorem C1_counterexample :
    isStartLine START_TAG = true ∧ isEndLine END_TAG = true ∧
    patchLines [END_TAG, START_TAG, END_TAG] ["1.2.3.4 x"] ≠
      [END_TAG, START_TAG, "1.2.3.4 x", END_TAG] := by
  decide

/-- C1 as amended: when the first line trimming to the start tag strictly
    precedes the first line trimming to the end tag, the lines before the
    start-tag line and after the end-tag line are preserved verbatim and
    in order, and in their place the patcher emits the start tag, the new
    managed lines and the end tag when the managed content is non-empty,
    and nothing at all when it is empty. -/
theorem C1_splice (A mid B entries : List String) (ls le : String)
    (hA : ∀ l ∈ A, isStartLine l = false ∧ isEndLine l = false)
    (hls : isStartLine ls = true)
    (hmid : ∀ l ∈ mid, isEndLine l = false)
    (hle : isEndLine le = true) :
    patchLines (A ++ ls :: (mid ++ le :: B)) entries =
      A ++ (if entries.isEmpty then [] else START_TAG :: (entries ++ [END_TAG])) ++ B := by
  have hfS : firstIdx isStartLine (A ++ ls :: (mid ++ le :: B)) = some A.length := by
    have h0 := firstIdx_append_some (fun x hx => (hA x hx).1) (ls :: (mid ++ le :: B))
      (firstIdx_cons_true _ hls)
    simpa using h0
  have hre : A ++ ls :: (mid ++ le :: B) = (A ++ ls :: mid) ++ le :: B := by
    simp [List.append_assoc]
  have hnoE : ∀ x ∈ A ++ ls :: mid, isEndLine x = false := by
    intro x hx
    rcases List.mem_append.mp hx with hx' | hx'
    · exact (hA x hx').2
    · rcases List.mem_cons.mp hx' with rfl | hx''
      · exact start_not_end hls
      · exact hmid x hx''
  have hfE : firstIdx isEndLine (A ++ ls :: (mid ++ le :: B)) =
      some (A.length + mid.length + 1) := by
    rw [hre]
    have h0 := firstIdx_append_some hnoE (le :: B) (firstIdx_cons_true _ hle)
    rw [h0]
    simp [List.length_append, List.length_cons]
    omega
  have hlt : A.length < A.length + mid.length + 1 := by omega
  have htake : (A ++ ls :: (mid ++ le :: B)).take A.length = A := take_len_append A _
  have hdrop : (A ++ ls :: (mid ++ le :: B)).drop (A.length + mid.length + 1 + 1) = B := by
    have hre2 : A ++ ls :: (mid ++ le :: B) = (A ++ ls :: (mid ++ [le])) ++ B := by
      simp [List.append_assoc]
    have hlen : (A ++ ls :: (mid ++ [le])).length = A.length + mid.length + 1 + 1 := by
      simp [List.length_append, List.length_cons]
      omega
    rw [hre2, ← hlen, drop_len_append]
  simp only [patchLines, hfS, hfE, if_pos hlt, htake, hdrop]

/-- Witness for the amended C1 at a concrete input: splicing replaces the
    old section and preserves the surrounding lines. -/
theorem C1_splice_witness :
    patchLines ["A", START_TAG, "old", END_TAG, "B"] ["1.2.3.4 nginx.docker"] =
      ["A", START_TAG, "1.2.3.4 nginx.docker", END_TAG, "B"] := by
  have h := C1_splice ["A"] ["old"] ["B"] ["1.2.3.4 nginx.docker"] START_TAG END_TAG
    (by decide) (by decide) (by decide) (by decide)
  exact h.trans (by decide)

/-! Section: C7: the append path -/

/-- C7: when the file has no valid ordered marker pair, every existing
    line is preserved; empty managed content leaves the lines untouched;
    non-empty managed content is appended bracketed by the tags, preceded
    by exactly one blank separator line exactly when the current last line
    is non-empty. -/
theorem C7_append_path (L entries : List String)
    (h : ∀ s e, firstIdx isStartLine L = some s → firstIdx isEndLine L = some e →
      ¬ s < e) :
    (entries = [] → patchLines L entries = L) ∧
    (entries ≠ [] → (L.getLast? = none ∨ L.getLast? = some "") →
      patchLines L entries = L ++ START_TAG :: (entries ++ [END_TAG])) ∧
    (entries ≠ [] → ∀ x, L.getLast? = some x → x ≠ "" →
      patchLines L entries = (L ++ [""]) ++ START_TAG :: (entries ++ [END_TAG])) := by
  have hP : patchLines L entries = appendSection L entries := by
    rcases hs : firstIdx isStartLine L with _ | s
    · simp [patchLines, hs]
    · rcases he : firstIdx isEndLine L with _ | e
      · simp [patchLines, hs, he]
      · simp [patchLines, hs, he, h s e hs he]
  refine ⟨?_, ?_, ?_⟩
  · intro hE
    rw [hP, hE]
    simp [appendSection]
  · intro hE hlast
    have hEfalse : entries.isEmpty = false := by
      cases entries with
      | nil => exact absurd rfl hE
      | cons a l => rfl
    rw [hP]
    unfold appendSection
    rw [hEfalse]
    rcases hlast with h0 | h0 <;> rw [h0] <;> simp
  · intro hE x h0 hx
    have hEfalse : entries.isEmpty = false := by
      cases entries with
      | nil => exact absurd rfl hE
      | cons a l => rfl
    rw [hP]
    unfold appendSection
    rw [hEfalse, h0]
    simp [hx]

/-- Witness for C7 at a concrete input: a marker-free file with a
    non-blank last line gains one blank line and the bracketed section. -/
theorem C7_append_path_witness :
    patchLines ["127.0.0.1 localhost", "192.168.1.1 server"] ["172.18.0.2 web.testnet"] =
      ["127.0.0.1 localhost", "192.168.1.1 server", "",
        START_TAG, "172.18.0.2 web.testnet", END_TAG] := by
  have h := (C7_append_path ["127.0.0.1 localhost", "192.168.1.1 server"]
    ["172.18.0.2 web.testnet"]
    (by
      intro s e hs he
      rw [show firstIdx isStartLine ["127.0.0.1 localhost", "192.168.1.1 server"] = none
        from by decide] at hs
      exact Option.noConfusion hs)).2.2
    (by decide) "192.168.1.1 server" (by decide) (by decide)
  exact h.trans (by decide)

/-! Section: Lines-level fixpoint of the patcher -/

/-- A freshly written section bracketed by the two tags, surrounded by
    marker-free lines, is a fixpoint of the patcher for the same managed
    content. -/
theorem splice_shape_fix (A B E : List String)
    (hE : ∀ l ∈ E, isStartLine l = false ∧ isEndLine l = false)
    (hA : ∀ l ∈ A, isStartLine l = false ∧ isEndLine l = false)
    (_hB : ∀ l ∈ B, isStartLine l = false ∧ isEndLine l = false)
    (hEne : E ≠ []) :
    patchLines (A ++ (START_TAG :: (E ++ [END_TAG])) ++ B) E =
      A ++ (START_TAG :: (E ++ [END_TAG])) ++ B := by
  have hEfalse : E.isEmpty = false := by
    cases E with
    | nil => exact absurd rfl hEne
    | cons a l => rfl
  have hfS : firstIdx isStartLine (A ++ (START_TAG :: (E ++ [END_TAG])) ++ B) =
      some A.length := by
    rw [List.append_assoc, List.cons_append]
    have h0 := firstIdx_append_some (fun x hx => (hA x hx).1)
      (START_TAG :: ((E ++ [END_TAG]) ++ B))
      (firstIdx_cons_true ((E ++ [END_TAG]) ++ B) tag_facts.1)
    simpa using h0
  have hre : A ++ (START_TAG :: (E ++ [END_TAG])) ++ B =
      (A ++ START_TAG :: E) ++ (END_TAG :: B) := by
    simp [List.append_assoc]
  have hnoE : ∀ x ∈ A ++ START_TAG :: E, isEndLine x = false := by
    intro x hx
    rcases List.mem_append.mp hx with hx' | hx'
    · exact (hA x hx').2
    · rcases List.mem_cons.mp hx' with rfl | hx''
      · exact tag_facts.2.1
      · exact (hE x hx'').2
  have hfE : firstIdx isEndLine (A ++ (START_TAG :: (E ++ [END_TAG])) ++ B) =
      some (A.length + E.length + 1) := by
    rw [hre]
    have h0 := firstIdx_append_some hnoE (END_TAG :: B)
      (firstIdx_cons_true B tag_facts.2.2.2.1)
    rw [h0]
    simp [List.length_append, List.length_cons]
    omega
  have hlt : A.length < A.length + E.length + 1 := by omega
  have htake : (A ++ (START_TAG :: (E ++ [END_TAG])) ++ B).take A.length = A := by
    rw [List.append_assoc]
    exact take_len_append A _
  have hdrop : (A ++ (START_TAG :: (E ++ [END_TAG])) ++ B).drop
      (A.length + E.length + 1 + 1) = B := by
    have hlen : (A ++ (START_TAG :: (E ++ [END_TAG]))).length =
        A.length + E.length + 1 + 1 := by
      simp [List.length_append, List.length_cons]
      omega
    rw [← hlen, drop_len_append]
  simp only [patchLines, hfS, hfE, if_pos hlt, htake, hdrop, hEfalse,
    Bool.false_eq_true, if_false]

/-- The patcher's output is a fixpoint for the same managed content,
    provided the managed lines trim to neither tag and the input's lines
    are marker-clean. -/
theorem patch_fixpoint (L E : List String)
    (hE : ∀ l ∈ E, isStartLine l = false ∧ isEndLine l = false)
    (hM : markerClean L) :
    patchLines (patchLines L E) E = patchLines L E := by
  rcases hM with hNo | ⟨s, e, hs, he, hse, hB⟩
  · have hfS : firstIdx isStartLine L = none :=
      firstIdx_eq_none (fun x hx => (hNo x hx).1)
    have hfE : firstIdx isEndLine L = none :=
      firstIdx_eq_none (fun x hx => (hNo x hx).2)
    have h1 : patchLines L E = appendSection L E := by simp [patchLines, hfS, hfE]
    by_cases hEnil : E = []
    · subst hEnil
      have h2 : appendSection L [] = L := by simp [appendSection]
      rw [h1, h2, h1, h2]
    · have hEfalse : E.isEmpty = false := by
        cases E with
        | nil => exact absurd rfl hEnil
        | cons a l => rfl
      rw [h1]
      unfold appendSection
      rw [hEfalse]
      simp only [Bool.false_eq_true, if_false]
      rcases hlast : L.getLast? with _ | x
      · simp only []
        have hfix := splice_shape_fix L [] E hE hNo (by simp) hEnil
        simpa using hfix
      · by_cases hx : x = ""
        · subst hx
          simp only [if_pos rfl]
          have hfix := splice_shape_fix L [] E hE hNo (by simp) hEnil
          simpa using hfix
        · simp only [if_neg hx]
          have hNo' : ∀ l ∈ L ++ [""], isStartLine l = false ∧ isEndLine l = false := by
            intro l hl
            rcases List.mem_append.mp hl with hl' | hl'
            · exact hNo l hl'
            · rw [List.mem_singleton.mp hl']
              exact ⟨tag_facts.2.2.2.2.1, tag_facts.2.2.2.2.2⟩
          have hfix := splice_shape_fix (L ++ [""]) [] E hE hNo' (by simp) hEnil
          simpa using hfix
  · have hA : ∀ l ∈ L.take s, isStartLine l = false ∧ isEndLine l = false := by
      intro x hx
      refine ⟨firstIdx_take hs x hx, ?_⟩
      apply firstIdx_take he
      have heq : (L.take e).take s = L.take s := by
        rw [List.take_take]
        congr 1
        omega
      rw [← heq] at hx
      exact List.take_subset s (L.take e) hx
    have h1 : patchLines L E =
        L.take s ++ (if E.isEmpty then [] else START_TAG :: (E ++ [END_TAG]))
          ++ L.drop (e + 1) := by
      simp only [patchLines, hs, he, if_pos hse]
    by_cases hEnil : E = []
    · subst hEnil
      simp only [List.isEmpty_nil, if_true, List.append_nil] at h1
      rw [h1]
      have hNo2 : ∀ l ∈ L.take s ++ L.drop (e + 1),
          isStartLine l = false ∧ isEndLine l = false := by
        intro l hl
        rcases List.mem_append.mp hl with hl' | hl'
        · exact hA l hl'
        · exact hB l hl'
      have hfS2 : firstIdx isStartLine (L.take s ++ L.drop (e + 1)) = none :=
        firstIdx_eq_none (fun x hx => (hNo2 x hx).1)
      have hfE2 : firstIdx isEndLine (L.take s ++ L.drop (e + 1)) = none :=
        firstIdx_eq_none (fun x hx => (hNo2 x hx).2)
      simp [patchLines, hfS2, hfE2, appendSection]
    · have hEfalse : E.isEmpty = false := by
        cases E with
        | nil => exact absurd rfl hEnil
        | cons a l => rfl
      rw [h1]
      simp only [hEfalse, Bool.false_eq_true, if_false]
      exact splice_shape_fix (L.take s) (L.drop (e + 1)) E hE hA hB hEnil

/-! Section: Serialization round trip -/

theorem splitAux_no_sep (c : Char) (x : List Char) :
    c ∉ (splitAux c x).1 ∧ ∀ s ∈ (splitAux c x).2, c ∉ s := by
  induction x with
  | nil => simp [splitAux]
  | cons y rest ih =>
    by_cases hy : y = c
    · subst hy
      simp only [splitAux, if_pos rfl]
      refine ⟨by simp, ?_⟩
      intro s hs
      rcases List.mem_cons.mp hs with rfl | hs'
      · exact ih.1
      · exact ih.2 s hs'
    · simp only [splitAux, if_neg hy]
      refine ⟨?_, ih.2⟩
      intro hmem
      rcases List.mem_cons.mp hmem with h | h
      · exact hy h.symm
      · exact ih.1 h

theorem splitOnChar_no_sep (c : Char) (x : List Char) :
    ∀ s ∈ splitOnChar c x, c ∉ s := by
  intro s hs
  rcases List.mem_cons.mp hs with rfl | hs'
  · exact (splitAux_no_sep c x).1
  · exact (splitAux_no_sep c x).2 s hs'

theorem stripCRChars_no_sep {c : Char} {l : List Char} (h : c ∉ l) :
    c ∉ stripCRChars l := by
  unfold stripCRChars
  split
  · intro hmem
    exact h (List.dropLast_subset l hmem)
  · exact h

theorem rustLinesSegs_no_nl (segs : List (List Char))
    (h : ∀ p ∈ segs, '\n' ∉ p) : ∀ l ∈ rustLinesSegs segs, '\n' ∉ l := by
  induction segs with
  | nil => simp [rustLinesSegs]
  | cons p rest ih =>
    cases rest with
    | nil =>
      intro l hl
      simp only [rustLinesSegs] at hl
      split at hl
      · simp at hl
      · rw [List.mem_singleton.mp hl]
        exact h p (List.mem_cons_self p [])
    | cons q rest' =>
      intro l hl
      simp only [rustLinesSegs] at hl
      rcases List.mem_cons.mp hl with rfl | hl'
      · exact stripCRChars_no_sep (h p (List.mem_cons_self p _))
      · exact ih (fun p' hp' => h p' (List.mem_cons_of_mem _ hp')) l hl'

theorem rustLines_no_nl (s : String) : ∀ l ∈ rustLines s, '\n' ∉ l.data := by
  intro l hl
  unfold rustLines rustLinesChars at hl
  rcases List.mem_map.mp hl with ⟨cs, hcs, rfl⟩
  exact rustLinesSegs_no_nl _ (splitOnChar_no_sep '\n' s.data) cs hcs

theorem splitAux_append (c : Char) (m t : List Char) (h : c ∉ m) :
    splitAux c (m ++ c :: t) = (m, (splitAux c t).1 :: (splitAux c t).2) := by
  induction m with
  | nil => simp [splitAux]
  | cons x m' ih =>
    have hx : ¬ x = c := fun e => h (e ▸ List.mem_cons_self x m')
    have h' : c ∉ m' := fun hm => h (List.mem_cons_of_mem x hm)
    simp [splitAux, hx, ih h']

theorem stripCRChars_id {l : List Char} (h : l.getLast? ≠ some '\r') :
    stripCRChars l = l := by
  unfold stripCRChars
  rw [if_neg h]

/-- Serializing lines with a trailing line feed and re-splitting yields
    the same lines, provided each line is line-feed free and does not end
    in a carriage return. -/
theorem roundTrip : ∀ (M : List (List Char)), M ≠ [] →
    (∀ m ∈ M, '\n' ∉ m ∧ m.getLast? ≠ some '\r') →
    rustLinesChars (joinChar '\n' M ++ ['\n']) = M := by
  intro M
  induction M with
  | nil => intro hne _; exact absurd rfl hne
  | cons m M' ih =>
    intro _ h
    have hm := h m (List.mem_cons_self _ _)
    cases M' with
    | nil =>
      unfold rustLinesChars splitOnChar
      rw [show joinChar '\n' [m] = m from rfl,
        show (m ++ ['\n'] : List Char) = m ++ '\n' :: [] from rfl,
        splitAux_append '\n' m [] hm.1]
      simp [rustLinesSegs, splitAux, stripCRChars_id hm.2]
    | cons m2 M'' =>
      have h' : ∀ x ∈ m2 :: M'', '\n' ∉ x ∧ x.getLast? ≠ some '\r' :=
        fun x hx => h x (List.mem_cons_of_mem _ hx)
      have ihr := ih (by simp) h'
      unfold rustLinesChars splitOnChar at ihr ⊢
      rw [show joinChar '\n' (m :: m2 :: M'') = m ++ '\n' :: joinChar '\n' (m2 :: M'')
          from rfl,
        List.append_assoc, List.cons_append,
        splitAux_append '\n' m _ hm.1]
      show stripCRChars m :: rustLinesSegs
          ((splitAux '\n' (joinChar '\n' (m2 :: M'') ++ ['\n'])).1
            :: (splitAux '\n' (joinChar '\n' (m2 :: M'') ++ ['\n'])).2)
          = m :: m2 :: M''
      rw [ihr, stripCRChars_id hm.2]

/-! Section: C2: idempotence of the full patch cycle -/

theorem appendSection_mem {L E : List String} {l : String}
    (h : l ∈ appendSection L E) :
    l ∈ L ∨ l ∈ E ∨ l = START_TAG ∨ l = END_TAG ∨ l = "" := by
  unfold appendSection at h
  split at h
  · exact Or.inl h
  · rcases List.mem_append.mp h with h1 | h2
    · split at h1
      · split at h1
        · exact Or.inl h1
        · rcases List.mem_append.mp h1 with ha | hb
          · exact Or.inl ha
          · exact Or.inr (Or.inr (Or.inr (Or.inr (List.mem_singleton.mp hb))))
      · exact Or.inl h1
    · rcases List.mem_cons.mp h2 with rfl | h3
      · exact Or.inr (Or.inr (Or.inl rfl))
      · rcases List.mem_append.mp h3 with h4 | h5
        · exact Or.inr (Or.inl h4)
        · exact Or.inr (Or.inr (Or.inr (Or.inl (List.mem_singleton.mp h5))))

theorem patchLines_mem {L E : List String} {l : String}
    (h : l ∈ patchLines L E) :
    l ∈ L ∨ l ∈ E ∨ l = START_TAG ∨ l = END_TAG ∨ l = "" := by
  rcases hs : firstIdx isStartLine L with _ | s
  · rw [show patchLines L E = appendSection L E from by simp [patchLines, hs]] at h
    exact appendSection_mem h
  · rcases he : firstIdx isEndLine L with _ | e
    · rw [show patchLines L E = appendSection L E from by simp [patchLines, hs, he]] at h
      exact appendSection_mem h
    · by_cases hse : s < e
      · have h1 : patchLines L E =
            L.take s ++ (if E.isEmpty then [] else START_TAG :: (E ++ [END_TAG]))
              ++ L.drop (e + 1) := by
          simp only [patchLines, hs, he, if_pos hse]
        rw [h1] at h
        rcases List.mem_append.mp h with h2 | h3
        · rcases List.mem_append.mp h2 with h4 | h5
          · exact Or.inl (List.take_subset _ _ h4)
          · split at h5
            · simp at h5
            · rcases List.mem_cons.mp h5 with rfl | h6
              · exact Or.inr (Or.inr (Or.inl rfl))
              · rcases List.mem_append.mp h6 with h7 | h8
                · exact Or.inr (Or.inl h7)
                · exact Or.inr (Or.inr (Or.inr (Or.inl (List.mem_singleton.mp h8))))
        · exact Or.inl (List.drop_subset _ _ h3)
      · rw [show patchLines L E = appendSection L E from by
          simp [patchLines, hs, he, hse]] at h
        exact appendSection_mem h

theorem appendSection_ne_nil {L E : List String} (hE : E ≠ []) :
    appendSection L E ≠ [] := by
  have hEfalse : E.isEmpty = false := by
    cases E with
    | nil => exact absurd rfl hE
    | cons a l => rfl
  unfold appendSection
  rw [hEfalse]
  simp

theorem patchLines_ne_nil {L E : List String} (hE : E ≠ []) :
    patchLines L E ≠ [] := by
  have hEfalse : E.isEmpty = false := by
    cases E with
    | nil => exact absurd rfl hE
    | cons a l => rfl
  rcases hs : firstIdx isStartLine L with _ | s
  · rw [show patchLines L E = appendSection L E from by simp [patchLines, hs]]
    exact appendSection_ne_nil hE
  · rcases he : firstIdx isEndLine L with _ | e
    · rw [show patchLines L E = appendSection L E from by simp [patchLines, hs, he]]
      exact appendSection_ne_nil hE
    · by_cases hse : s < e
      · rw [show patchLines L E =
            L.take s ++ (if E.isEmpty then [] else START_TAG :: (E ++ [END_TAG]))
              ++ L.drop (e + 1) from by simp only [patchLines, hs, he, if_pos hse]]
        rw [hEfalse]
        simp
      · rw [show patchLines L E = appendSection L E from by
          simp [patchLines, hs, he, hse]]
        exact appendSection_ne_nil hE

/-- C2 counterexample: on a file consisting of a lone end-tag line there
    is no valid marker pair, so each pass appends a fresh section and the
    second pass is not byte-identical to the first. -/
theorem C2_counterexample :
    patchContent (patchContent "## docker-hostmanager-end\n" ["1.2.3.4 x"])
        ["1.2.3.4 x"] ≠
      patchContent "## docker-hostmanager-end\n" ["1.2.3.4 x"] := by
  decide

/-- C2 as amended: the full read-patch-serialize cycle is idempotent
    provided every managed line is clean (no line feed, no trailing
    carriage return, trims to neither tag), no file line ends in a
    carriage return, and the file's lines are marker-clean: no sentinel
    line at all, or a first start tag before the first end tag with no
    sentinel line after the end tag. -/
theorem C2_idempotent (c : String) (E : List String)
    (hE : ∀ l ∈ E, cleanEntry l)
    (hL : ∀ l ∈ rustLines c, l.data.getLast? ≠ some '\r')
    (hM : markerClean (rustLines c)) :
    patchContent (patchContent c E) E = patchContent c E := by
  have hEm : ∀ l ∈ E, isStartLine l = false ∧ isEndLine l = false :=
    fun l hl => ⟨(hE l hl).2.2.1, (hE l hl).2.2.2⟩
  by_cases h1 : patchLines (rustLines c) E = []
  · have hEnil : E = [] := by
      by_contra hne
      exact patchLines_ne_nil hne h1
    subst hEnil
    have hc1 : patchContent c [] = String.mk ['\n'] := by
      unfold patchContent
      rw [h1]
      rfl
    rw [hc1]
    rw [show patchContent (String.mk ['\n']) [] = String.mk ['\n'] from by decide]
  · have hclean : ∀ m ∈ (patchLines (rustLines c) E).map String.data,
        '\n' ∉ m ∧ m.getLast? ≠ some '\r' := by
      intro m hm
      rcases List.mem_map.mp hm with ⟨l, hl, rfl⟩
      rcases patchLines_mem hl with h | h | h | h | h
      · exact ⟨rustLines_no_nl c l h, hL l h⟩
      · exact ⟨(hE l h).1, (hE l h).2.1⟩
      · subst h; exact ⟨by decide, by decide⟩
      · subst h; exact ⟨by decide, by decide⟩
      · subst h; exact ⟨by decide, by decide⟩
    have hne : (patchLines (rustLines c) E).map String.data ≠ [] := by
      simpa using h1
    have hrt : rustLines (patchContent c E) = patchLines (rustLines c) E := by
      show ((rustLinesChars
        (joinChar '\n' ((patchLines (rustLines c) E).map String.data)
          ++ ['\n'])).map (fun cs => String.mk cs)) = patchLines (rustLines c) E
      rw [roundTrip _ hne hclean, List.map_map]
      have hmk : ∀ l ∈ patchLines (rustLines c) E,
          ((fun cs => String.mk cs) ∘ String.data) l = l := by
        intro l _
        exact strMk_data l
      rw [List.map_congr_left hmk]
      simp
    show String.mk (joinChar '\n'
        ((patchLines (rustLines (patchContent c E)) E).map String.data) ++ ['\n'])
      = patchContent c E
    rw [hrt, patch_fixpoint _ _ hEm hM]
    rfl

/-- Witness for the amended C2 at a concrete input: a well-formed hosts
    file with one managed section is patched idempotently. -/
theorem C2_idempotent_witness :
    patchContent (patchContent
        "A\n## docker-hostmanager-start\nold\n## docker-hostmanager-end\nB\n"
        ["1.2.3.4 nginx.docker"]) ["1.2.3.4 nginx.docker"] =
      patchContent
        "A\n## docker-hostmanager-start\nold\n## docker-hostmanager-end\nB\n"
        ["1.2.3.4 nginx.docker"] := by
  apply C2_idempotent
  · unfold cleanEntry
    decide
  · decide
  · exact Or.inr ⟨1, 3, by decide, by decide, by decide, by unfold noMarker; decide⟩

end DockerHostManager
